import Mathlib

/-!
Verification of the `mbtmap` filter (src/main.rs): a stream filter that scans
text for `wasm://<x>:<y>:<addr>` tokens, resolves each address through a
source map, and appends a ` path:line:col` annotation after the matched token.

The embedding works on `List Char` for the scanning/replacement core and on
`String` for the `resolve` function, mirroring the Rust source.
-/

/- ## Data model

`RawToken` is a decoded source-map entry: a generated-output position
(`dst_line`, `dst_col`) mapped to an original source position (`src_line`,
`src_col`, both 0-based) with an optional source path. -/

structure RawToken where
  dst_line : Nat
  dst_col : Nat
  src_line : Nat
  src_col : Nat
  source : Option String
deriving DecidableEq, Repr

structure SourceMap where
  tokens : List RawToken
deriving DecidableEq, Repr

/-- Modelled from the spec: the mapping index wraps the external source-map
library; `lookup_token(line, col)` returns the entry that covers or most
closely precedes the queried generated position (lexicographic order on
line/column), or no match when no entry precedes it. -/
def SourceMap.lookup_token (map : SourceMap) (line col : Nat) : Option RawToken :=
  List.foldl
    (fun best t =>
      if t.dst_line < line ∨ (t.dst_line = line ∧ t.dst_col ≤ col) then
        match best with
        | none => some t
        | some b =>
          if b.dst_line < t.dst_line ∨ (b.dst_line = t.dst_line ∧ b.dst_col ≤ t.dst_col) then
            some t
          else some b
      else best)
    none map.tokens

/- ## Numeric address decoding

Mirrors `usize::from_str_radix(s, 16)` / `s.parse::<usize>()` on a 64-bit
target: an optional leading `+`, at least one digit of the radix, and failure
on any invalid character or on overflow past `2 ^ 64`. -/

/-- Value of one digit character, as in `char::to_digit`: `0`-`9`, then
letters starting at value 10; values at or above the radix are rejected. -/
def digitValue (radix : Nat) (c : Char) : Option Nat :=
  let v? :=
    if 48 ≤ c.toNat ∧ c.toNat ≤ 57 then some (c.toNat - 48)
    else if 97 ≤ c.toNat ∧ c.toNat ≤ 122 then some (c.toNat - 97 + 10)
    else if 65 ≤ c.toNat ∧ c.toNat ≤ 90 then some (c.toNat - 65 + 10)
    else none
  match v? with
  | some v => if v < radix then some v else none
  | none => none

def parseDigits (radix : Nat) : List Char → Nat → Option Nat
  | [], acc => some acc
  | c :: cs, acc =>
    match digitValue radix c with
    | some v => parseDigits radix cs (radix * acc + v)
    | none => none

/-- `usize::from_str_radix` on a 64-bit target.  Accumulating with checked
arithmetic fails exactly when the final value does not fit in 64 bits. -/
def from_str_radix (radix : Nat) (s : String) : Option Nat :=
  let cs :=
    match s.data with
    | '+' :: rest => rest
    | cs => cs
  match cs with
  | [] => none
  | _ =>
    match parseDigits radix cs 0 with
    | some v => if v < 2 ^ 64 then some v else none
    | none => none

/-- The address decoding step of `resolve`: `0x`-prefixed text is parsed as
hexadecimal after stripping the prefix, anything else as decimal. -/
def resolveAddr (addr : String) : Option Nat :=
  if addr.data.take 2 = ['0', 'x'] then
    from_str_radix 16 (String.mk (addr.data.drop 2))
  else
    from_str_radix 10 addr

/- ## Path rendering

Mirrors `PathBuf::from(s).strip_prefix(cwd)`: component-wise prefix stripping.
Separators collapse, empty and `.` components are normalized away, and an
absolute path can only be stripped by an absolute base (and vice versa). -/

def splitOnSlash : List Char → List (List Char)
  | [] => [[]]
  | c :: cs =>
    let r := splitOnSlash cs
    if c = '/' then [] :: r
    else
      match r with
      | h :: t => (c :: h) :: t
      | [] => [[c]]

def pathComponents (cs : List Char) : List (List Char) :=
  (splitOnSlash cs).filter (fun comp => comp ≠ [] ∧ comp ≠ ['.'])

def isAbsolutePath (cs : List Char) : Bool :=
  match cs with
  | '/' :: _ => true
  | _ => false

def dropPathComponents : List (List Char) → List (List Char) → Option (List (List Char))
  | [], rest => some rest
  | _ :: _, [] => none
  | b :: bs, c :: cs => if b = c then dropPathComponents bs cs else none

/-- `Path::strip_prefix`: succeeds exactly when `base`'s components are a
leading run of `s`'s components, yielding the remaining components. -/
def stripBaseDir (s base : List Char) : Option (List Char) :=
  if isAbsolutePath s = isAbsolutePath base then
    (dropPathComponents (pathComponents base) (pathComponents s)).map
      (List.intercalate ['/'])
  else none

/-- The `let path = match token.get_source() ...` block of `resolve`. -/
def renderPath (source : Option String) (cwd : Option String) : String :=
  match source with
  | some s =>
    match cwd with
    | some base =>
      match stripBaseDir s.data base.data with
      | some path => String.mk path
      | none => s
    | none => s
  | none => "<unknown>"

/-- `resolve(map, addr, cwd)` from src/main.rs: decode the address, truncate
to `u32` (`addr as u32` is reduction modulo `2 ^ 32`), look it up on generated
line 0, and format `path:line+1:col+1`. -/
def resolve (map : SourceMap) (addr : String) (cwd : Option String) : Option String :=
  match resolveAddr addr with
  | none => none
  | some v =>
    match map.lookup_token 0 (v % 2 ^ 32) with
    | none => none
    | some token =>
      some (renderPath token.source cwd ++ ":" ++ toString (token.src_line + 1)
        ++ ":" ++ toString (token.src_col + 1))

/- ## Token scanner

A direct leftmost-first (Perl-preference) matcher for the fixed pattern
`wasm\://.*\:.*\:((?:0x)?[[:xdigit:]]+)`, where `.` matches anything except a
newline and the quantifiers are greedy with backtracking preference. -/

/-- `[[:xdigit:]]`: ASCII `0`-`9`, `a`-`f`, `A`-`F`. -/
def isXDigit (c : Char) : Bool :=
  (48 ≤ c.toNat && c.toNat ≤ 57) || (97 ≤ c.toNat && c.toNat ≤ 102)
    || (65 ≤ c.toNat && c.toNat ≤ 70)

/-- Maximal leading run of hex digits, with the remainder. -/
def takeXDigits : List Char → List Char × List Char
  | [] => ([], [])
  | c :: cs =>
    if isXDigit c then
      let (d, r) := takeXDigits cs
      (c :: d, r)
    else ([], c :: cs)

/-- Match `(?:0x)?[[:xdigit:]]+` at the head: prefer consuming a literal `0x`
when at least one hex digit follows; otherwise fall back to a bare digit run
(so `0xg` matches just `0`).  Returns the matched text and the remainder. -/
def matchAddr (cs : List Char) : Option (List Char × List Char) :=
  if cs.take 2 = ['0', 'x'] then
    match takeXDigits (cs.drop 2) with
    | (d :: ds, r) => some ('0' :: 'x' :: d :: ds, r)
    | ([], _) => some (['0'], 'x' :: cs.drop 2)
  else
    match takeXDigits cs with
    | (d :: ds, r) => some (d :: ds, r)
    | ([], _) => none

/-- Match `.*\:((?:0x)?[[:xdigit:]]+)` at the head with a greedy star:
prefer extending the star (never across a newline), falling back to taking
the literal `:` here.  Returns (consumed text, captured address, remainder). -/
def seg2 : List Char → Option (List Char × List Char × List Char)
  | [] => none
  | c :: cs =>
    match
      if c = '\n' then none
      else (seg2 cs).map (fun r => (c :: r.1, r.2.1, r.2.2))
    with
    | some res => some res
    | none =>
      if c = ':' then
        (matchAddr cs).map (fun r => (':' :: r.1, r.1, r.2))
      else none

/-- Match `.*\:.*\:((?:0x)?[[:xdigit:]]+)` at the head, greedy first star. -/
def seg1 : List Char → Option (List Char × List Char × List Char)
  | [] => none
  | c :: cs =>
    match
      if c = '\n' then none
      else (seg1 cs).map (fun r => (c :: r.1, r.2.1, r.2.2))
    with
    | some res => some res
    | none =>
      if c = ':' then
        (seg2 cs).map (fun r => (':' :: r.1, r.2.1, r.2.2))
      else none

def wasmLit : List Char := ['w', 'a', 's', 'm', ':', '/', '/']

/-- Match the whole pattern at the head: the literal `wasm://` followed by
the two star segments and the address capture. -/
def matchWasm (cs : List Char) : Option (List Char × List Char × List Char) :=
  if cs.take 7 = wasmLit then
    (seg1 (cs.drop 7)).map (fun r => (wasmLit ++ r.1, r.2.1, r.2.2))
  else none

/-- Leftmost match: scan forward for the first position where the pattern
matches.  Returns (text before the match, match, capture, remainder). -/
def findMatch : List Char → Option (List Char × List Char × List Char × List Char)
  | [] => none
  | c :: cs =>
    match matchWasm (c :: cs) with
    | some r => some ([], r.1, r.2.1, r.2.2)
    | none => (findMatch cs).map (fun r => (c :: r.1, r.2.1, r.2.2.1, r.2.2.2))

/- ## The replacement driver -/

/-- The replacement text appended after a match: the resolved annotation, or
the empty string when resolution fails (`unwrap_or_default`). -/
def annText (map : SourceMap) (cwd : Option String) (a : List Char) : List Char :=
  ((resolve map (String.mk a) cwd).getD "").data

/-- Fuel-indexed core of `replace_all`; with fuel at least the unit length it
rewrites every successive non-overlapping leftmost match. -/
def replaceAllGo (map : SourceMap) (cwd : Option String) : Nat → List Char → List Char
  | 0, cs => cs
  | fuel + 1, cs =>
    match findMatch cs with
    | none => cs
    | some (p, m, a, r) =>
      p ++ m ++ ' ' :: annText map cwd a ++ replaceAllGo map cwd fuel r

/-- `re.replace_all` with the annotation-appending closure, over one unit. -/
def replaceAll (map : SourceMap) (cwd : Option String) (cs : List Char) : List Char :=
  replaceAllGo map cwd cs.length cs

/-- `read_line` granularity: one line up to and including its `\n`, plus the
remainder (the final line may lack a terminator). -/
def takeLine : List Char → List Char × List Char
  | [] => ([], [])
  | c :: cs =>
    if c = '\n' then ([c], cs)
    else
      let (l, r) := takeLine cs
      (c :: l, r)

def splitLinesGo : Nat → List Char → List (List Char)
  | 0, _ => []
  | fuel + 1, cs =>
    match cs with
    | [] => []
    | c :: cs' =>
      let (l, r) := takeLine (c :: cs')
      l :: splitLinesGo fuel r

/-- The successive buffers produced by the `read_line` loop. -/
def splitLines (cs : List Char) : List (List Char) :=
  splitLinesGo cs.length cs

/-- One scan-and-rewrite pass over one unit of input. -/
def filterUnit (map : SourceMap) (cwd : Option String) (s : String) : String :=
  String.mk (replaceAll map cwd s.data)

/-- Whole-buffer mode: one pass over the entire input. -/
def filterWholeBuffer (map : SourceMap) (cwd : Option String) (input : String) : String :=
  filterUnit map cwd input

/-- Line-buffered mode: the concatenation of the per-line outputs. -/
def filterLineBuffered (map : SourceMap) (cwd : Option String) (input : String) : String :=
  String.join ((splitLines input.data).map (fun l => filterUnit map cwd (String.mk l)))

/- ## Run model for the driver's effect ordering

The observable side effects of `main`, in order: reading the whole input,
reading one line, loading the mapping table, writing a unit of output.  A
`World` fixes whether the input read and the table load succeed. -/

inductive Event where
  | readAll : Event
  | readLine : Event
  | loadMap : Event
  | write : String → Event
deriving DecidableEq, Repr

structure World where
  inputData : Option String
  mapData : Option SourceMap

/-- Whole-buffer `main` branch: `input.read_to_string()?` runs first, then
`read_source_map(..)?`, then the single rewritten result is written. -/
def runWholeBuffer (w : World) (cwd : Option String) : List Event × Bool :=
  match w.inputData with
  | none => ([Event.readAll], false)
  | some input =>
    match w.mapData with
    | none => ([Event.readAll, Event.loadMap], false)
    | some map =>
      ([Event.readAll, Event.loadMap, Event.write (filterWholeBuffer map cwd input)], true)

/-- Line-buffered `main` branch: `read_source_map(..)?` runs first, then the
loop alternates one line read with one write until a read returns 0 bytes. -/
def runLineBuffered (w : World) (cwd : Option String) : List Event × Bool :=
  match w.mapData with
  | none => ([Event.loadMap], false)
  | some map =>
    match w.inputData with
    | none => ([Event.loadMap, Event.readLine], false)
    | some input =>
      (Event.loadMap ::
        (((splitLines input.data).map
          (fun l => [Event.readLine, Event.write (filterUnit map cwd (String.mk l))])).flatten
          ++ [Event.readLine]), true)

/- ## Output-shape invariant

`Annotated map cwd input output` holds when `output` is `input` with zero or
more `' ' :: annotation` insertions, each placed immediately after a complete
pattern match, and no character of `input` removed or altered. -/

inductive Annotated (map : SourceMap) (cwd : Option String) : List Char → List Char → Prop where
  | refl : ∀ cs, Annotated map cwd cs cs
  | insert : ∀ pre m a rest out,
      matchWasm (m ++ rest) = some (m, a, rest) →
      Annotated map cwd rest out →
      Annotated map cwd (pre ++ m ++ rest) (pre ++ m ++ ' ' :: annText map cwd a ++ out)


/- ## Decomposition lemmas for the scanner -/

lemma takeXDigits_decomp : ∀ (cs d r : List Char), takeXDigits cs = (d, r) → cs = d ++ r := by
  intro cs
  induction cs with
  | nil =>
    intro d r h
    simp only [takeXDigits, Prod.mk.injEq] at h
    simp [← h.1, ← h.2]
  | cons c cs ih =>
    intro d r h
    simp only [takeXDigits] at h
    split at h
    · cases htx : takeXDigits cs with
      | mk d' r' =>
        rw [htx] at h
        simp only [Prod.mk.injEq] at h
        obtain ⟨h1, h2⟩ := h
        subst h1; subst h2
        simpa using ih d' r' htx
    · simp only [Prod.mk.injEq] at h
      simp [← h.1, ← h.2]

lemma matchAddr_decomp : ∀ (cs a r : List Char), matchAddr cs = some (a, r) → cs = a ++ r ∧ a ≠ [] := by
  intro cs a r h
  unfold matchAddr at h
  split at h
  · rename_i h2
    have hcs : cs = '0' :: 'x' :: cs.drop 2 := by
      conv_lhs => rw [← List.take_append_drop 2 cs]
      rw [h2]; rfl
    split at h
    · rename_i d' ds' r' htx
      simp only [Option.some.injEq, Prod.mk.injEq] at h
      obtain ⟨ha, hr⟩ := h
      subst ha; subst hr
      refine ⟨?_, by simp⟩
      rw [hcs, takeXDigits_decomp _ _ _ htx]; rfl
    · rename_i r' htx
      simp only [Option.some.injEq, Prod.mk.injEq] at h
      obtain ⟨ha, hr⟩ := h
      subst ha; subst hr
      exact ⟨by rw [hcs]; rfl, by simp⟩
  · split at h
    · rename_i d' ds' r' htx
      simp only [Option.some.injEq, Prod.mk.injEq] at h
      obtain ⟨ha, hr⟩ := h
      subst ha; subst hr
      exact ⟨takeXDigits_decomp _ _ _ htx, by simp⟩
    · simp at h

lemma seg2_decomp : ∀ (cs m a r : List Char), seg2 cs = some (m, a, r) → cs = m ++ r ∧ m ≠ [] := by
  intro cs
  induction cs with
  | nil => intro m a r h; simp [seg2] at h
  | cons c cs ih =>
    intro m a r h
    simp only [seg2] at h
    split at h
    · rename_i res heq
      split at heq
      · cases heq
      · obtain ⟨q, hq, hfq⟩ := Option.map_eq_some'.mp heq
        obtain ⟨m', a', r'⟩ := q
        cases h
        simp only [Prod.mk.injEq] at hfq
        obtain ⟨h1, h2, h3⟩ := hfq
        subst h1; subst h2; subst h3
        have := ih m' a' r' hq
        exact ⟨by simp [this.1], by simp⟩
    · split at h
      · rename_i hcol
        obtain ⟨q, hq, hfq⟩ := Option.map_eq_some'.mp h
        obtain ⟨a', r'⟩ := q
        simp only [Prod.mk.injEq] at hfq
        obtain ⟨h1, h2, h3⟩ := hfq
        subst h1; subst h2; subst h3
        subst hcol
        exact ⟨by simp [(matchAddr_decomp _ _ _ hq).1], by simp⟩
      · cases h

lemma seg1_decomp : ∀ (cs m a r : List Char), seg1 cs = some (m, a, r) → cs = m ++ r ∧ m ≠ [] := by
  intro cs
  induction cs with
  | nil => intro m a r h; simp [seg1] at h
  | cons c cs ih =>
    intro m a r h
    simp only [seg1] at h
    split at h
    · rename_i res heq
      split at heq
      · cases heq
      · obtain ⟨q, hq, hfq⟩ := Option.map_eq_some'.mp heq
        obtain ⟨m', a', r'⟩ := q
        cases h
        simp only [Prod.mk.injEq] at hfq
        obtain ⟨h1, h2, h3⟩ := hfq
        subst h1; subst h2; subst h3
        have := ih m' a' r' hq
        exact ⟨by simp [this.1], by simp⟩
    · split at h
      · rename_i hcol
        obtain ⟨q, hq, hfq⟩ := Option.map_eq_some'.mp h
        obtain ⟨m', a', r'⟩ := q
        simp only [Prod.mk.injEq] at hfq
        obtain ⟨h1, h2, h3⟩ := hfq
        subst h1; subst h2; subst h3
        subst hcol
        exact ⟨by simp [(seg2_decomp _ _ _ _ hq).1], by simp⟩
      · cases h

lemma matchWasm_decomp : ∀ (cs m a r : List Char),
    matchWasm cs = some (m, a, r) → cs = m ++ r ∧ m ≠ [] := by
  intro cs m a r h
  unfold matchWasm at h
  split at h
  · rename_i h7
    obtain ⟨q, hq, hfq⟩ := Option.map_eq_some'.mp h
    obtain ⟨m', a', r'⟩ := q
    simp only [Prod.mk.injEq] at hfq
    obtain ⟨h1, h2, h3⟩ := hfq
    subst h1; subst h2; subst h3
    refine ⟨?_, by simp [wasmLit]⟩
    conv_lhs => rw [← List.take_append_drop 7 cs]
    rw [h7, (seg1_decomp _ _ _ _ hq).1, List.append_assoc]
  · cases h

lemma findMatch_decomp : ∀ (cs p m a r : List Char),
    findMatch cs = some (p, m, a, r) → cs = p ++ m ++ r ∧ m ≠ [] := by
  intro cs
  induction cs with
  | nil => intro p m a r h; simp [findMatch] at h
  | cons c cs ih =>
    intro p m a r h
    simp only [findMatch] at h
    split at h
    · rename_i q hw
      obtain ⟨m', a', r'⟩ := q
      simp only [Option.some.injEq, Prod.mk.injEq] at h
      obtain ⟨hp, hm, ha, hr⟩ := h
      subst hp; subst hm; subst ha; subst hr
      have := matchWasm_decomp _ _ _ _ hw
      exact ⟨by simpa using this.1, this.2⟩
    · obtain ⟨q, hq, hfq⟩ := Option.map_eq_some'.mp h
      obtain ⟨p', m', a', r'⟩ := q
      simp only [Prod.mk.injEq] at hfq
      obtain ⟨h1, h2, h3, h4⟩ := hfq
      subst h1; subst h2; subst h3; subst h4
      have := ih p' m' a' r' hq
      exact ⟨by simp [this.1], this.2⟩

lemma findMatch_matchWasm : ∀ (cs p m a r : List Char),
    findMatch cs = some (p, m, a, r) → matchWasm (m ++ r) = some (m, a, r) := by
  intro cs
  induction cs with
  | nil => intro p m a r h; simp [findMatch] at h
  | cons c cs ih =>
    intro p m a r h
    simp only [findMatch] at h
    split at h
    · rename_i q hw
      obtain ⟨m', a', r'⟩ := q
      simp only [Option.some.injEq, Prod.mk.injEq] at h
      obtain ⟨hp, hm, ha, hr⟩ := h
      subst hm; subst ha; subst hr
      have hd := (matchWasm_decomp _ _ _ _ hw).1
      rw [← hd]; exact hw
    · obtain ⟨q, hq, hfq⟩ := Option.map_eq_some'.mp h
      obtain ⟨p', m', a', r'⟩ := q
      simp only [Prod.mk.injEq] at hfq
      obtain ⟨h1, h2, h3, h4⟩ := hfq
      subst h2; subst h3; subst h4
      exact ih p' m' a' r' hq

lemma findMatch_rest_length {cs p m a r : List Char}
    (h : findMatch cs = some (p, m, a, r)) : r.length < cs.length := by
  obtain ⟨hd, hm⟩ := findMatch_decomp cs p m a r h
  have : 0 < m.length := List.length_pos.mpr hm
  rw [hd]
  simp only [List.length_append]
  omega

/- ## Fuel irrelevance and unfolding equations for the driver -/

lemma replaceAllGo_congr (map : SourceMap) (cwd : Option String) :
    ∀ (f g : Nat) (cs : List Char), cs.length ≤ f → cs.length ≤ g →
      replaceAllGo map cwd f cs = replaceAllGo map cwd g cs := by
  intro f
  induction f with
  | zero =>
    intro g cs hf _
    have hcs : cs = [] := List.length_eq_zero.mp (Nat.le_zero.mp hf)
    subst hcs
    cases g with
    | zero => rfl
    | succ g => simp [replaceAllGo, findMatch]
  | succ f ih =>
    intro g cs hf hg
    cases g with
    | zero =>
      have hcs : cs = [] := List.length_eq_zero.mp (Nat.le_zero.mp hg)
      subst hcs
      simp [replaceAllGo, findMatch]
    | succ g =>
      simp only [replaceAllGo]
      cases hfm : findMatch cs with
      | none => rfl
      | some q =>
        obtain ⟨p, m, a, r⟩ := q
        have hlen := findMatch_rest_length hfm
        show p ++ m ++ ' ' :: annText map cwd a ++ replaceAllGo map cwd f r
          = p ++ m ++ ' ' :: annText map cwd a ++ replaceAllGo map cwd g r
        rw [ih g r (by omega) (by omega)]

lemma replaceAll_eq_none {map : SourceMap} {cwd : Option String} {cs : List Char}
    (h : findMatch cs = none) : replaceAll map cwd cs = cs := by
  unfold replaceAll
  cases hl : cs.length with
  | zero => rfl
  | succ n => simp [replaceAllGo, h]

lemma replaceAll_eq_some {map : SourceMap} {cwd : Option String} {cs p m a r : List Char}
    (h : findMatch cs = some (p, m, a, r)) :
    replaceAll map cwd cs = p ++ m ++ ' ' :: annText map cwd a ++ replaceAll map cwd r := by
  have hlen := findMatch_rest_length h
  unfold replaceAll
  cases hl : cs.length with
  | zero =>
    have : cs = [] := List.length_eq_zero.mp hl
    subst this
    simp [findMatch] at h
  | succ n =>
    simp only [replaceAllGo, h]
    rw [replaceAllGo_congr map cwd n r.length r (by omega) le_rfl]

/- ## Tail-stability: a match never crosses a newline, so the behaviour of the
scanner on `s ++ '\n' :: t` is determined by `s` (for matches starting in `s`). -/

lemma takeXDigits_tail (s : List Char) (hs : '\n' ∉ s) :
    ∃ d u, s = d ++ u ∧ ∀ t, takeXDigits (s ++ '\n' :: t) = (d, u ++ '\n' :: t) := by
  induction s with
  | nil =>
    refine ⟨[], [], rfl, fun t => ?_⟩
    have hx : isXDigit '\n' = false := rfl
    simp [takeXDigits, hx]
  | cons c s ih =>
    have hs' : '\n' ∉ s := fun h => hs (List.mem_cons_of_mem _ h)
    by_cases hx : isXDigit c
    · obtain ⟨d, u, hdu, hall⟩ := ih hs'
      refine ⟨c :: d, u, by simp [hdu], fun t => ?_⟩
      simp [takeXDigits, hx, hall t]
    · refine ⟨[], c :: s, rfl, fun t => ?_⟩
      simp [takeXDigits, hx]

lemma matchAddr_tail_bare (s : List Char) (hs : '\n' ∉ s)
    (hc : ∀ t : List Char, (s ++ '\n' :: t).take 2 ≠ ['0', 'x']) :
    (∀ t, matchAddr (s ++ '\n' :: t) = none) ∨
    ∃ a u, s = a ++ u ∧ a ≠ [] ∧ ∀ t, matchAddr (s ++ '\n' :: t) = some (a, u ++ '\n' :: t) := by
  obtain ⟨d, u, hdu, hall⟩ := takeXDigits_tail s hs
  cases d with
  | nil =>
    left; intro t
    simp [matchAddr, hc t, hall t]
  | cons e es =>
    right
    exact ⟨e :: es, u, hdu, by simp, fun t => by simp [matchAddr, hc t, hall t]⟩

lemma matchAddr_tail (s : List Char) (hs : '\n' ∉ s) :
    (∀ t, matchAddr (s ++ '\n' :: t) = none) ∨
    ∃ a u, s = a ++ u ∧ a ≠ [] ∧ ∀ t, matchAddr (s ++ '\n' :: t) = some (a, u ++ '\n' :: t) := by
  match s, hs with
  | [], hs =>
    refine matchAddr_tail_bare [] hs (fun t h => ?_)
    rw [show (([] : List Char) ++ '\n' :: t).take 2 = '\n' :: t.take 1 from rfl] at h
    injection h with h1 _
    exact absurd h1 (by decide)
  | [c1], hs =>
    refine matchAddr_tail_bare [c1] hs (fun t h => ?_)
    rw [show (([c1] : List Char) ++ '\n' :: t).take 2 = [c1, '\n'] from rfl] at h
    injection h with _ h2
    injection h2 with h2 _
    exact absurd h2 (by decide)
  | c1 :: c2 :: s2, hs =>
    have hs2 : '\n' ∉ s2 := fun h => hs (by simp [h])
    by_cases h0x : c1 = '0' ∧ c2 = 'x'
    · obtain ⟨h1, h2⟩ := h0x
      subst h1; subst h2
      obtain ⟨d, u, hdu, hall⟩ := takeXDigits_tail s2 hs2
      have htk : ∀ t : List Char, (('0' :: 'x' :: s2) ++ '\n' :: t).take 2 = ['0', 'x'] :=
        fun t => rfl
      have hdr : ∀ t : List Char, (('0' :: 'x' :: s2) ++ '\n' :: t).drop 2 = s2 ++ '\n' :: t :=
        fun t => rfl
      cases d with
      | nil =>
        right
        refine ⟨['0'], 'x' :: s2, rfl, by simp, fun t => ?_⟩
        simp [matchAddr, htk t, hdr t, hall t]
      | cons e es =>
        right
        refine ⟨'0' :: 'x' :: e :: es, u, by simp [hdu], by simp, fun t => ?_⟩
        simp [matchAddr, htk t, hdr t, hall t]
    · refine matchAddr_tail_bare (c1 :: c2 :: s2) hs (fun t h => ?_)
      rw [show ((c1 :: c2 :: s2) ++ '\n' :: t).take 2 = [c1, c2] from rfl] at h
      injection h with h1 h2
      injection h2 with h2 _
      exact h0x ⟨h1, h2⟩

lemma seg2_tail (s : List Char) (hs : '\n' ∉ s) :
    (∀ t, seg2 (s ++ '\n' :: t) = none) ∨
    ∃ m a u, s = m ++ u ∧ m ≠ [] ∧ ∀ t, seg2 (s ++ '\n' :: t) = some (m, a, u ++ '\n' :: t) := by
  induction s with
  | nil =>
    left; intro t
    have h1 : ('\n' : Char) = '\n' := rfl
    have h2 : ('\n' : Char) ≠ ':' := by decide
    simp [seg2, h2]
  | cons c s ih =>
    have hc : c ≠ '\n' := fun h => hs (by simp [h])
    have hs' : '\n' ∉ s := fun h => hs (List.mem_cons_of_mem _ h)
    rcases ih hs' with hnone | ⟨m, a, u, hmu, hm, hall⟩
    · by_cases hcol : c = ':'
      · subst hcol
        rcases matchAddr_tail s hs' with hanone | ⟨a, u, hau, ha, haall⟩
        · left; intro t
          simp [seg2, hc, hnone t, hanone t]
        · right
          refine ⟨':' :: a, a, u, by simp [hau], by simp, fun t => ?_⟩
          simp [seg2, hc, hnone t, haall t]
      · left; intro t
        simp [seg2, hc, hnone t, hcol]
    · right
      refine ⟨c :: m, a, u, by simp [hmu], by simp, fun t => ?_⟩
      simp [seg2, hc, hall t]

lemma seg1_tail (s : List Char) (hs : '\n' ∉ s) :
    (∀ t, seg1 (s ++ '\n' :: t) = none) ∨
    ∃ m a u, s = m ++ u ∧ m ≠ [] ∧ ∀ t, seg1 (s ++ '\n' :: t) = some (m, a, u ++ '\n' :: t) := by
  induction s with
  | nil =>
    left; intro t
    have h2 : ('\n' : Char) ≠ ':' := by decide
    simp [seg1, h2]
  | cons c s ih =>
    have hc : c ≠ '\n' := fun h => hs (by simp [h])
    have hs' : '\n' ∉ s := fun h => hs (List.mem_cons_of_mem _ h)
    rcases ih hs' with hnone | ⟨m, a, u, hmu, hm, hall⟩
    · by_cases hcol : c = ':'
      · subst hcol
        rcases seg2_tail s hs' with hanone | ⟨m, a, u, hau, hm, haall⟩
        · left; intro t
          simp [seg1, hc, hnone t, hanone t]
        · right
          refine ⟨':' :: m, a, u, by simp [hau], by simp, fun t => ?_⟩
          simp [seg1, hc, hnone t, haall t]
      · left; intro t
        simp [seg1, hc, hnone t, hcol]
    · right
      refine ⟨c :: m, a, u, by simp [hmu], by simp, fun t => ?_⟩
      simp [seg1, hc, hall t]

lemma matchWasm_tail (s : List Char) (hs : '\n' ∉ s) :
    (∀ t, matchWasm (s ++ '\n' :: t) = none) ∨
    ∃ m a u, s = m ++ u ∧ m ≠ [] ∧ ∀ t, matchWasm (s ++ '\n' :: t) = some (m, a, u ++ '\n' :: t) := by
  by_cases h7 : 7 ≤ s.length
  · have htk : ∀ t : List Char, (s ++ '\n' :: t).take 7 = s.take 7 :=
      fun t => List.take_append_of_le_length h7
    have hdp : ∀ t : List Char, (s ++ '\n' :: t).drop 7 = s.drop 7 ++ '\n' :: t :=
      fun t => List.drop_append_of_le_length h7
    by_cases hlit : s.take 7 = wasmLit
    · have hs' : '\n' ∉ s.drop 7 := fun h => hs (List.mem_of_mem_drop h)
      rcases seg1_tail (s.drop 7) hs' with hnone | ⟨m, a, u, hmu, hm, hall⟩
      · left; intro t
        simp [matchWasm, htk t, hdp t, hlit, hnone t]
      · right
        refine ⟨wasmLit ++ m, a, u, ?_, by simp [wasmLit], fun t => ?_⟩
        · conv_lhs => rw [← List.take_append_drop 7 s]
          rw [hlit, hmu, List.append_assoc]
        · simp [matchWasm, htk t, hdp t, hlit, hall t]
    · left; intro t
      simp [matchWasm, htk t, hlit]
  · left; intro t
    have hsp : (s ++ '\n' :: t).take 7 = s ++ ('\n' :: t).take (7 - s.length) := by
      rw [List.take_append_eq_append_take, List.take_of_length_le (by omega)]
    have hmem : '\n' ∈ (s ++ '\n' :: t).take 7 := by
      rw [hsp]
      apply List.mem_append_right
      cases hds : 7 - s.length with
      | zero => omega
      | succ k => simp [List.take]
    have hne : (s ++ '\n' :: t).take 7 ≠ wasmLit := by
      intro he
      rw [he] at hmem
      revert hmem
      decide
    simp [matchWasm, hne]

lemma findMatch_tail (s : List Char) (hs : '\n' ∉ s) :
    (∃ p m a u, s = p ++ m ++ u ∧ m ≠ [] ∧
      ∀ t, findMatch (s ++ '\n' :: t) = some (p, m, a, u ++ '\n' :: t)) ∨
    (∀ t, findMatch (s ++ '\n' :: t) =
      (findMatch t).map (fun r => (s ++ '\n' :: r.1, r.2.1, r.2.2.1, r.2.2.2))) := by
  induction s with
  | nil =>
    right; intro t
    have hmw : matchWasm ('\n' :: t) = none := by
      unfold matchWasm
      rw [if_neg]
      intro he
      rw [show (('\n' : Char) :: t).take 7 = '\n' :: t.take 6 from rfl] at he
      injection he with h1 _
      exact absurd h1 (by decide)
    simp only [List.nil_append, findMatch, hmw]
  | cons c s ih =>
    have hs' : '\n' ∉ s := fun h => hs (List.mem_cons_of_mem _ h)
    rcases matchWasm_tail (c :: s) hs with hnone | ⟨m, a, u, hmu, hm, hall⟩
    · rcases ih hs' with ⟨p, m, a, u, hpmu, hm, hall⟩ | hpass
      · left
        refine ⟨c :: p, m, a, u, by simp [hpmu], hm, fun t => ?_⟩
        have h1 : ((c :: s) ++ '\n' :: t) = c :: (s ++ '\n' :: t) := rfl
        rw [h1]
        simp only [findMatch]
        rw [show matchWasm (c :: (s ++ '\n' :: t)) = none from hnone t, hall t]
        rfl
      · right; intro t
        have h1 : ((c :: s) ++ '\n' :: t) = c :: (s ++ '\n' :: t) := rfl
        rw [h1]
        simp only [findMatch]
        rw [show matchWasm (c :: (s ++ '\n' :: t)) = none from hnone t, hpass t]
        cases hft : findMatch t <;> simp
    · left
      refine ⟨[], m, a, u, by simpa using hmu, hm, fun t => ?_⟩
      have h1 : ((c :: s) ++ '\n' :: t) = c :: (s ++ '\n' :: t) := rfl
      rw [h1]
      simp only [findMatch]
      rw [show matchWasm (c :: (s ++ '\n' :: t)) = some (m, a, u ++ '\n' :: t) from hall t]

/- ## Line splitting -/

lemma replaceAll_nil (map : SourceMap) (cwd : Option String) : replaceAll map cwd [] = [] := rfl

lemma replaceAll_split (map : SourceMap) (cwd : Option String) :
    ∀ (n : Nat) (s t : List Char), s.length ≤ n → '\n' ∉ s →
      replaceAll map cwd (s ++ '\n' :: t) =
        replaceAll map cwd (s ++ ['\n']) ++ replaceAll map cwd t := by
  intro n
  induction n with
  | zero =>
    intro s t hn hs
    have hse : s = [] := List.length_eq_zero.mp (Nat.le_zero.mp hn)
    subst hse
    rcases findMatch_tail [] hs with ⟨p, m, a, u, hpmu, hm, _⟩ | hpass
    · exact absurd (by simpa using hpmu.symm) (by simp [hm])
    · cases hft : findMatch t with
      | none =>
        have h1 : findMatch (([] : List Char) ++ '\n' :: t) = none := by
          rw [hpass t, hft]; rfl
        have h2 : findMatch (([] : List Char) ++ ['\n']) = none := by
          have := hpass []
          rw [this]; rfl
        rw [replaceAll_eq_none h1, replaceAll_eq_none h2, replaceAll_eq_none hft]
        simp
      | some q =>
        obtain ⟨p, m, a, r⟩ := q
        have h1 : findMatch (([] : List Char) ++ '\n' :: t) = some ('\n' :: p, m, a, r) := by
          rw [hpass t, hft]; rfl
        have h2 : findMatch (([] : List Char) ++ ['\n']) = none := by
          have := hpass []
          rw [this]; rfl
        rw [replaceAll_eq_some h1, replaceAll_eq_none h2, replaceAll_eq_some hft]
        simp
  | succ n ih =>
    intro s t hn hs
    rcases findMatch_tail s hs with ⟨p, m, a, u, hpmu, hm, hall⟩ | hpass
    · have h1 : findMatch (s ++ '\n' :: t) = some (p, m, a, u ++ '\n' :: t) := hall t
      have h2 : findMatch (s ++ ['\n']) = some (p, m, a, u ++ ['\n']) := hall []
      rw [replaceAll_eq_some h1, replaceAll_eq_some h2]
      have hu : '\n' ∉ u := by
        intro hmem
        exact hs (by rw [hpmu]; exact List.mem_append_right _ hmem)
      have hun : u.length ≤ n := by
        have h3 : s.length = p.length + m.length + u.length := by
          rw [hpmu]; simp [List.length_append]; omega
        have h4 : 0 < m.length := List.length_pos.mpr hm
        omega
      rw [ih u t hun hu]
      simp [List.append_assoc]
    · cases hft : findMatch t with
      | none =>
        have h1 : findMatch (s ++ '\n' :: t) = none := by rw [hpass t, hft]; rfl
        have h2 : findMatch (s ++ ['\n']) = none := by
          have := hpass []
          rw [this]; rfl
        rw [replaceAll_eq_none h1, replaceAll_eq_none h2, replaceAll_eq_none hft]
        simp
      | some q =>
        obtain ⟨p, m, a, r⟩ := q
        have h1 : findMatch (s ++ '\n' :: t) = some (s ++ '\n' :: p, m, a, r) := by
          rw [hpass t, hft]; rfl
        have h2 : findMatch (s ++ ['\n']) = none := by
          have := hpass []
          rw [this]; rfl
        rw [replaceAll_eq_some h1, replaceAll_eq_none h2, replaceAll_eq_some hft]
        simp [List.append_assoc]

lemma takeLine_decomp : ∀ (cs l r : List Char), takeLine cs = (l, r) →
    cs = l ++ r ∧ (cs ≠ [] → l ≠ []) ∧
      (('\n' ∉ l ∧ r = []) ∨ ∃ s, l = s ++ ['\n'] ∧ '\n' ∉ s) := by
  intro cs
  induction cs with
  | nil =>
    intro l r h
    simp only [takeLine, Prod.mk.injEq] at h
    obtain ⟨h1, h2⟩ := h
    subst h1; subst h2
    exact ⟨rfl, by simp, Or.inl ⟨by simp, rfl⟩⟩
  | cons c cs ih =>
    intro l r h
    simp only [takeLine] at h
    split at h
    · rename_i hc
      subst hc
      simp only [Prod.mk.injEq] at h
      obtain ⟨h1, h2⟩ := h
      subst h1; subst h2
      exact ⟨rfl, by simp, Or.inr ⟨[], rfl, by simp⟩⟩
    · rename_i hc
      cases htl : takeLine cs with
      | mk l' r' =>
        rw [htl] at h
        simp only [Prod.mk.injEq] at h
        obtain ⟨h1, h2⟩ := h
        subst h1; subst h2
        obtain ⟨hd, _, hdisj⟩ := ih l' r' htl
        refine ⟨by simp [hd], by simp, ?_⟩
        rcases hdisj with ⟨hnl, hr⟩ | ⟨s, hls, hsn⟩
        · exact Or.inl ⟨by simp [hnl]; exact fun he => hc he.symm, hr⟩
        · exact Or.inr ⟨c :: s, by simp [hls], by simp [hsn]; exact fun he => hc he.symm⟩

lemma splitLinesGo_congr :
    ∀ (f g : Nat) (cs : List Char), cs.length ≤ f → cs.length ≤ g →
      splitLinesGo f cs = splitLinesGo g cs := by
  intro f
  induction f with
  | zero =>
    intro g cs hf _
    have hcs : cs = [] := List.length_eq_zero.mp (Nat.le_zero.mp hf)
    subst hcs
    cases g with
    | zero => rfl
    | succ g => rfl
  | succ f ih =>
    intro g cs hf hg
    cases g with
    | zero =>
      have hcs : cs = [] := List.length_eq_zero.mp (Nat.le_zero.mp hg)
      subst hcs
      rfl
    | succ g =>
      cases cs with
      | nil => rfl
      | cons c cs' =>
        simp only [splitLinesGo]
        cases htl : takeLine (c :: cs') with
        | mk l r =>
          obtain ⟨hd, hne, _⟩ := takeLine_decomp _ _ _ htl
          have hl : l ≠ [] := hne (by simp)
          have hlen : r.length ≤ (c :: cs').length - 1 := by
            have : (c :: cs').length = l.length + r.length := by rw [hd]; simp
            have : 0 < l.length := List.length_pos.mpr hl
            omega
          have hcs : (c :: cs').length = cs'.length + 1 := by simp
          show l :: splitLinesGo f r = l :: splitLinesGo g r
          rw [ih g r (by omega) (by omega)]

lemma splitLines_cons {cs l r : List Char} (hne : cs ≠ []) (h : takeLine cs = (l, r)) :
    splitLines cs = l :: splitLines r := by
  unfold splitLines
  cases hcs : cs with
  | nil => exact absurd hcs hne
  | cons c cs' =>
    subst hcs
    obtain ⟨hd, hlne, _⟩ := takeLine_decomp _ _ _ h
    have hl : l ≠ [] := hlne (by simp)
    have hlen : r.length ≤ (c :: cs').length - 1 := by
      have : (c :: cs').length = l.length + r.length := by rw [hd]; simp
      have : 0 < l.length := List.length_pos.mpr hl
      omega
    have h1 : (c :: cs').length = cs'.length + 1 := by simp
    rw [h1]
    simp only [splitLinesGo, h]
    rw [splitLinesGo_congr cs'.length r.length r (by omega) le_rfl]

lemma replaceAll_lines (map : SourceMap) (cwd : Option String) :
    ∀ (n : Nat) (cs : List Char), cs.length ≤ n →
      replaceAll map cwd cs = ((splitLines cs).map (replaceAll map cwd)).flatten := by
  intro n
  induction n with
  | zero =>
    intro cs hn
    have hcs : cs = [] := List.length_eq_zero.mp (Nat.le_zero.mp hn)
    subst hcs
    rfl
  | succ n ih =>
    intro cs hn
    cases hcs : cs with
    | nil => rfl
    | cons c cs' =>
      subst hcs
      cases htl : takeLine (c :: cs') with
      | mk l r =>
        obtain ⟨hd, hlne, hdisj⟩ := takeLine_decomp _ _ _ htl
        rw [splitLines_cons (by simp) htl]
        simp only [List.map_cons, List.flatten_cons]
        rcases hdisj with ⟨hnl, hr⟩ | ⟨s, hls, hsn⟩
        · subst hr
          rw [List.append_nil] at hd
          rw [← hd]
          simp [splitLines, splitLinesGo]
        · have hlen : r.length ≤ n := by
            have h3 : (c :: cs').length = l.length + r.length := by rw [hd]; simp
            have h4 : 0 < l.length := List.length_pos.mpr (hlne (by simp))
            have h5 : (c :: cs').length = cs'.length + 1 := by simp
            omega
          have hcsr : c :: cs' = s ++ '\n' :: r := by
            rw [hd, hls]
            simp
          rw [hcsr, replaceAll_split map cwd s.length s r le_rfl hsn, ih r hlen, ← hls]

lemma string_join_mk : ∀ (ls : List (List Char)) (acc : List Char),
    List.foldl (fun r s => r ++ s) (String.mk acc) (ls.map String.mk) =
      String.mk (acc ++ ls.flatten) := by
  intro ls
  induction ls with
  | nil => intro acc; simp
  | cons l ls ih =>
    intro acc
    have h1 : String.mk acc ++ String.mk l = String.mk (acc ++ l) := rfl
    simp only [List.map_cons, List.foldl_cons, h1, ih (acc ++ l), List.flatten_cons]
    rw [List.append_assoc]

/- ## Claims -/

/-- C1: for every input unit (whole buffer or single line) and every mapping
table, the output unit emitted by the filter is byte-identical to the input
unit except for the insertion of zero or more `" <annotation>"` suffixes, each
placed immediately after a matched address token; no character of the original
input is removed or altered. -/
theorem replaceAll_only_inserts_annotations (map : SourceMap) (cwd : Option String)
    (cs : List Char) : Annotated map cwd cs (replaceAll map cwd cs) := by
  have H : ∀ (n : Nat) (cs : List Char), cs.length ≤ n →
      Annotated map cwd cs (replaceAll map cwd cs) := by
    intro n
    induction n with
    | zero =>
      intro cs hn
      have hcs : cs = [] := List.length_eq_zero.mp (Nat.le_zero.mp hn)
      subst hcs
      exact Annotated.refl []
    | succ n ih =>
      intro cs hn
      cases hfm : findMatch cs with
      | none =>
        rw [replaceAll_eq_none hfm]
        exact Annotated.refl cs
      | some q =>
        obtain ⟨p, m, a, r⟩ := q
        rw [replaceAll_eq_some hfm]
        obtain ⟨hdec, _⟩ := findMatch_decomp _ _ _ _ _ hfm
        have hw := findMatch_matchWasm _ _ _ _ _ hfm
        have hr : r.length ≤ n := by
          have := findMatch_rest_length hfm
          omega
        rw [hdec]
        exact Annotated.insert p m a r _ hw (ih r hr)
  exact H cs.length cs le_rfl

/-- C2: whole-buffer mode and line-buffered mode produce identical concatenated
output.  The theorem is unconditional: no character matched by the pattern can
be a newline, so no match ever straddles a line boundary and the proviso of
the claim always holds. -/
theorem wholeBuffer_eq_lineBuffered (map : SourceMap) (cwd : Option String)
    (input : String) : filterWholeBuffer map cwd input = filterLineBuffered map cwd input := by
  unfold filterWholeBuffer filterLineBuffered filterUnit
  rw [replaceAll_lines map cwd input.data.length input.data le_rfl]
  have hjoin : ∀ ls : List (List Char), String.join (ls.map String.mk) = String.mk ls.flatten := by
    intro ls
    have h := string_join_mk ls []
    simpa [String.join] using h
  rw [← hjoin ((splitLines input.data).map (replaceAll map cwd)), List.map_map]
  rfl

/-- C3: a recognized address token whose decoded value has a covering entry is
followed in the output by exactly one space and a `path:line:column`
annotation, the stored 0-based line and column each incremented by one. -/
theorem covered_token_annotated (map : SourceMap) (cwd : Option String)
    (cs p m a r : List Char) (v : Nat) (tok : RawToken)
    (hf : findMatch cs = some (p, m, a, r))
    (hv : resolveAddr (String.mk a) = some v)
    (htok : map.lookup_token 0 (v % 2 ^ 32) = some tok) :
    replaceAll map cwd cs =
      p ++ m ++ ' ' :: (renderPath tok.source cwd ++ ":" ++ toString (tok.src_line + 1)
        ++ ":" ++ toString (tok.src_col + 1)).data ++ replaceAll map cwd r := by
  rw [replaceAll_eq_some hf]
  have hres : resolve map (String.mk a) cwd =
      some (renderPath tok.source cwd ++ ":" ++ toString (tok.src_line + 1)
        ++ ":" ++ toString (tok.src_col + 1)) := by
    simp only [resolve, hv, htok]
  simp [annText, hres]

theorem covered_token_annotated_witness :
    resolveAddr (String.mk "0x1a".data) = some 26 ∧
    replaceAll (SourceMap.mk [⟨0, 26, 41, 4, some "src/lib.rs"⟩]) none "wasm://a:b:0x1a".data
      = "wasm://a:b:0x1a src/lib.rs:42:5".data :=
  ⟨by decide,
   (covered_token_annotated (SourceMap.mk [⟨0, 26, 41, 4, some "src/lib.rs"⟩]) none
      "wasm://a:b:0x1a".data [] "wasm://a:b:0x1a".data "0x1a".data [] 26
      ⟨0, 26, 41, 4, some "src/lib.rs"⟩ (by decide) (by decide) (by decide)).trans (by decide)⟩

/-- C9: a captured address that parses to machine-word value `v` is looked up
at line 0, column `v mod 2^32`: a value at or above `2^32` that fits the
machine word is truncated, not rejected, and can resolve to the entry
covering `v mod 2^32`. -/
theorem lookup_at_addr_mod_u32 (map : SourceMap) (cwd : Option String) (addr : String)
    (v : Nat) (hv : resolveAddr addr = some v) :
    resolve map addr cwd = (map.lookup_token 0 (v % 2 ^ 32)).map
      (fun token => renderPath token.source cwd ++ ":" ++ toString (token.src_line + 1)
        ++ ":" ++ toString (token.src_col + 1)) := by
  simp only [resolve, hv]
  cases h : map.lookup_token 0 (v % 2 ^ 32) <;> simp [h]

theorem lookup_at_addr_mod_u32_witness :
    resolveAddr "0x100000003" = some 4294967299 ∧ 2 ^ 32 ≤ 4294967299 ∧
    resolve (SourceMap.mk [⟨0, 3, 0, 0, some "hit.rs"⟩]) "0x100000003" none = some "hit.rs:1:1" :=
  ⟨by decide, by decide,
   (lookup_at_addr_mod_u32 (SourceMap.mk [⟨0, 3, 0, 0, some "hit.rs"⟩]) none "0x100000003"
      4294967299 (by decide)).trans (by decide)⟩

/-- C4 counterexample: the decimal address 4294967296 = 2^32 lies beyond the
table's 32-bit addressable range, yet it decodes successfully, is truncated
to column 0, and resolves to an annotation — where the claim predicts
"no match" for such a value. -/
theorem addr_beyond_range_still_annotates :
    resolveAddr "4294967296" = some (2 ^ 32) ∧
    resolve (SourceMap.mk [⟨0, 0, 41, 4, some "a.rs"⟩]) "4294967296" none = some "a.rs:42:5" ∧
    resolve (SourceMap.mk [⟨0, 0, 41, 4, some "a.rs"⟩]) "4294967296" none ≠ none :=
  ⟨by decide, by decide, by decide⟩

/-- C4 amended: decoding failure — a non-numeric payload, or a numeric value
that overflows the 64-bit machine word — results in no match for that token,
never a hard error; a value that fits the machine word but exceeds the
32-bit addressable range is instead truncated modulo 2^32 (see C9). -/
theorem decode_failure_no_annotation (map : SourceMap) (cwd : Option String)
    (addr : String) (h : resolveAddr addr = none) : resolve map addr cwd = none := by
  simp only [resolve, h]

theorem decode_failure_no_annotation_witness :
    resolveAddr "18446744073709551616" = none ∧
    resolve (SourceMap.mk [⟨0, 0, 0, 0, some "a.rs"⟩]) "18446744073709551616" none = none :=
  ⟨by decide,
   decode_failure_no_annotation (SourceMap.mk [⟨0, 0, 0, 0, some "a.rs"⟩]) none
     "18446744073709551616" (by decide)⟩

/-- C7: the renderer distinguishes two degraded paths: a token whose source
path is absent renders with the literal `<unknown>` placeholder and 1-based
line/column; when no token resolves at all (lookup miss or decode failure)
the annotation is the empty string and the driver emits the original token
followed by a single trailing space and nothing else. -/
theorem renderer_degraded_paths (map : SourceMap) (cwd : Option String) :
    (∀ (addr : String) (v : Nat) (tok : RawToken),
      resolveAddr addr = some v → map.lookup_token 0 (v % 2 ^ 32) = some tok →
      tok.source = none →
      resolve map addr cwd = some ("<unknown>" ++ ":" ++ toString (tok.src_line + 1)
        ++ ":" ++ toString (tok.src_col + 1))) ∧
    (∀ (cs p m a r : List Char),
      findMatch cs = some (p, m, a, r) → resolve map (String.mk a) cwd = none →
      replaceAll map cwd cs = p ++ m ++ ' ' :: replaceAll map cwd r) := by
  constructor
  · intro addr v tok hv htok hsrc
    simp only [resolve, hv, htok]
    simp [renderPath, hsrc]
  · intro cs p m a r hf hres
    rw [replaceAll_eq_some hf]
    simp [annText, hres]

theorem renderer_degraded_paths_witness :
    resolve (SourceMap.mk [⟨0, 1, 2, 3, none⟩]) "1" none = some "<unknown>:3:4" ∧
    replaceAll (SourceMap.mk []) none "wasm://a:b:9".data = "wasm://a:b:9 ".data := by
  constructor
  · exact ((renderer_degraded_paths (SourceMap.mk [⟨0, 1, 2, 3, none⟩]) none).1 "1" 1
      ⟨0, 1, 2, 3, none⟩ (by decide) (by decide) rfl).trans (by decide)
  · exact ((renderer_degraded_paths (SourceMap.mk []) none).2 "wasm://a:b:9".data []
      "wasm://a:b:9".data "9".data [] (by decide) (by decide)).trans (by decide)

/-- C8: when the resolved token's stored source path is not a descendant of
the configured base directory, relative-path rendering equals absolute-path
rendering: the stored path is emitted unchanged. -/
theorem nondescendant_path_relative_eq_absolute (map : SourceMap) (addr : String)
    (base : String) (v : Nat) (tok : RawToken) (s : String)
    (hv : resolveAddr addr = some v)
    (htok : map.lookup_token 0 (v % 2 ^ 32) = some tok)
    (hsrc : tok.source = some s)
    (hstrip : stripBaseDir s.data base.data = none) :
    resolve map addr (some base) = resolve map addr none := by
  simp only [resolve, hv, htok]
  simp [renderPath, hsrc, hstrip]

theorem nondescendant_path_relative_eq_absolute_witness :
    stripBaseDir "/other/lib.rs".data "/proj".data = none ∧
    resolve (SourceMap.mk [⟨0, 5, 0, 0, some "/other/lib.rs"⟩]) "5" (some "/proj")
      = resolve (SourceMap.mk [⟨0, 5, 0, 0, some "/other/lib.rs"⟩]) "5" none :=
  ⟨by decide,
   nondescendant_path_relative_eq_absolute (SourceMap.mk [⟨0, 5, 0, 0, some "/other/lib.rs"⟩])
     "5" "/proj" 5 ⟨0, 5, 0, 0, some "/other/lib.rs"⟩ "/other/lib.rs"
     (by decide) (by decide) rfl (by decide)⟩

/- ## C10 support: a hex letter digit is never a valid decimal digit -/

lemma digitValue_ten_hexLetter {c : Char}
    (h : (97 ≤ c.toNat ∧ c.toNat ≤ 102) ∨ (65 ≤ c.toNat ∧ c.toNat ≤ 70)) :
    digitValue 10 c = none := by
  rcases h with ⟨h1, h2⟩ | ⟨h1, h2⟩
  · simp only [digitValue]
    rw [if_neg (by omega), if_pos ⟨h1, by omega⟩]
    show (if c.toNat - 97 + 10 < 10 then some (c.toNat - 97 + 10) else none) = none
    rw [if_neg (by omega)]
  · simp only [digitValue]
    rw [if_neg (by omega), if_neg (by omega), if_pos ⟨h1, by omega⟩]
    show (if c.toNat - 65 + 10 < 10 then some (c.toNat - 65 + 10) else none) = none
    rw [if_neg (by omega)]

lemma parseDigits_none (radix : Nat) :
    ∀ (cs : List Char) (c : Char), c ∈ cs → digitValue radix c = none →
      ∀ acc, parseDigits radix cs acc = none := by
  intro cs
  induction cs with
  | nil => intro c hc; cases hc
  | cons d cs ih =>
    intro c hc hdv acc
    rcases List.mem_cons.mp hc with h1 | h2
    · subst h1
      simp [parseDigits, hdv]
    · cases hd : digitValue radix d with
      | none => simp [parseDigits, hd]
      | some v =>
        simp only [parseDigits, hd]
        exact ih c h2 hdv _

lemma from_str_radix_eq (radix : Nat) (s : String) :
    from_str_radix radix s =
      match (match s.data with | '+' :: rest => rest | cs => cs : List Char) with
      | [] => none
      | _ =>
        match parseDigits radix
            (match s.data with | '+' :: rest => rest | cs => cs : List Char) 0 with
        | some v => if v < 2 ^ 64 then some v else none
        | none => none := rfl

lemma stripPlus_cons (c0 : Char) (cs' : List Char) (h : c0 ≠ '+') :
    (match (c0 :: cs' : List Char) with | '+' :: rest => rest | cs => cs) = c0 :: cs' := by
  split
  · rename_i rest heq
    injection heq with h1 _
    exact absurd h1 h
  · rfl

lemma from_str_aux_none (b : Char) (bs : List Char) (c : Char) (hmem : c ∈ b :: bs)
    (hdv : digitValue 10 c = none) :
    (match parseDigits 10 (b :: bs) 0 with
      | some v => if v < 2 ^ 64 then some v else none
      | none => (none : Option Nat)) = none := by
  rw [parseDigits_none 10 (b :: bs) c hmem hdv 0]

lemma from_str_ten_hexLetter (a : List Char) (c : Char) (hc : c ∈ a)
    (hletter : (97 ≤ c.toNat ∧ c.toNat ≤ 102) ∨ (65 ≤ c.toNat ∧ c.toNat ≤ 70)) :
    from_str_radix 10 (String.mk a) = none := by
  have hdv : digitValue 10 c = none := digitValue_ten_hexLetter hletter
  have hcplus : c ≠ '+' := by
    intro he
    have h43 : c.toNat = 43 := by rw [he]; rfl
    omega
  rw [from_str_radix_eq]
  have hdata : (String.mk a).data = a := rfl
  rw [hdata]
  cases a with
  | nil => cases hc
  | cons a0 as =>
    by_cases h0 : a0 = '+'
    · subst h0
      have hmem : c ∈ as := by
        rcases List.mem_cons.mp hc with h | h
        · exact absurd h hcplus
        · exact h
      cases as with
      | nil => cases hmem
      | cons b bs => exact from_str_aux_none b bs c hmem hdv
    · rw [stripPlus_cons a0 as h0]
      exact from_str_aux_none a0 as c hc hdv

lemma resolveAddr_bare_hexLetter (a : List Char) (c : Char) (hc : c ∈ a)
    (hletter : (97 ≤ c.toNat ∧ c.toNat ≤ 102) ∨ (65 ≤ c.toNat ∧ c.toNat ≤ 70))
    (hpre : a.take 2 ≠ ['0', 'x']) :
    resolveAddr (String.mk a) = none := by
  unfold resolveAddr
  rw [if_neg hpre]
  exact from_str_ten_hexLetter a c hc hletter

/-- C10: an address payload written as bare hexadecimal digits (no `0x`
prefix) containing at least one letter digit is matched by the token scanner,
yet decoding always fails (it is parsed as decimal), so the output is the
original token followed by one trailing space and no annotation, regardless
of the mapping table's contents. -/
theorem bare_hex_letters_never_annotate (map : SourceMap) (cwd : Option String)
    (cs p m a r : List Char) (c : Char)
    (hf : findMatch cs = some (p, m, a, r))
    (hc : c ∈ a)
    (hletter : (97 ≤ c.toNat ∧ c.toNat ≤ 102) ∨ (65 ≤ c.toNat ∧ c.toNat ≤ 70))
    (hpre : a.take 2 ≠ ['0', 'x']) :
    replaceAll map cwd cs = p ++ m ++ ' ' :: replaceAll map cwd r := by
  rw [replaceAll_eq_some hf]
  have hres : resolve map (String.mk a) cwd = none := by
    simp only [resolve, resolveAddr_bare_hexLetter a c hc hletter hpre]
  simp [annText, hres]

theorem bare_hex_letters_never_annotate_witness :
    findMatch "wasm://a:b:ff".data = some ([], "wasm://a:b:ff".data, "ff".data, []) ∧
    replaceAll (SourceMap.mk [⟨0, 255, 0, 0, some "cover.rs"⟩]) none "wasm://a:b:ff".data
      = "wasm://a:b:ff ".data := by
  constructor
  · decide
  · exact (bare_hex_letters_never_annotate (SourceMap.mk [⟨0, 255, 0, 0, some "cover.rs"⟩])
      none "wasm://a:b:ff".data [] "wasm://a:b:ff".data "ff".data [] 'f'
      (by decide) (by decide) (by decide) (by decide)).trans (by decide)

/-- C6 counterexample: two complete tokens on the same line are not located as
two separate matches: the greedy pattern produces a single match spanning both
occurrences, capturing only the second address, and the driver appends a
single annotation (from the second address) after the merged span. -/
theorem same_line_tokens_merge_into_one_match :
    findMatch "wasm://a:b:1 wasm://c:d:2".data =
      some ([], "wasm://a:b:1 wasm://c:d:2".data, "2".data, []) ∧
    replaceAll (SourceMap.mk [⟨0, 1, 0, 0, some "one.rs"⟩, ⟨0, 2, 0, 0, some "two.rs"⟩]) none
      "wasm://a:b:1 wasm://c:d:2".data = "wasm://a:b:1 wasm://c:d:2 two.rs:1:1".data :=
  ⟨by decide, by decide⟩

/-- C6 amended: every match the scanner reports is resolved and annotated
independently, in left-to-right order — successive non-overlapping matches
each get their own annotation; but several complete tokens on one line are
merged by the greedy pattern into a single match (annotated once, with the
last address), so only tokens on separate lines are matched separately. -/
theorem successive_matches_annotated_left_to_right (map : SourceMap) (cwd : Option String)
    (cs p₁ m₁ a₁ r₁ p₂ m₂ a₂ r₂ : List Char)
    (h1 : findMatch cs = some (p₁, m₁, a₁, r₁))
    (h2 : findMatch r₁ = some (p₂, m₂, a₂, r₂)) :
    replaceAll map cwd cs =
      p₁ ++ m₁ ++ ' ' :: annText map cwd a₁ ++
        (p₂ ++ m₂ ++ ' ' :: annText map cwd a₂ ++ replaceAll map cwd r₂) := by
  rw [replaceAll_eq_some h1, replaceAll_eq_some h2]

theorem successive_matches_annotated_left_to_right_witness :
    findMatch "wasm://a:b:1\nwasm://c:d:2\n".data
      = some ([], "wasm://a:b:1".data, "1".data, "\nwasm://c:d:2\n".data) ∧
    replaceAll (SourceMap.mk [⟨0, 1, 0, 0, some "one.rs"⟩, ⟨0, 2, 0, 0, some "two.rs"⟩]) none
      "wasm://a:b:1\nwasm://c:d:2\n".data
      = "wasm://a:b:1 one.rs:1:1\nwasm://c:d:2 two.rs:1:1\n".data := by
  constructor
  · decide
  · exact (successive_matches_annotated_left_to_right
      (SourceMap.mk [⟨0, 1, 0, 0, some "one.rs"⟩, ⟨0, 2, 0, 0, some "two.rs"⟩]) none
      "wasm://a:b:1\nwasm://c:d:2\n".data
      [] "wasm://a:b:1".data "1".data "\nwasm://c:d:2\n".data
      ['\n'] "wasm://c:d:2".data "2".data ['\n']
      (by decide) (by decide)).trans (by decide)

/-- C5 counterexample: in whole-buffer mode the run reads the entire input
before opening the mapping table, so a run whose table fails to load has
already read (consumed) its input: the event trace starts with the input
read and ends at the failed table load — contradicting "no input is read
before the mapping table has been successfully loaded, in both modes". -/
theorem wholeBuffer_reads_input_before_map :
    runWholeBuffer ⟨some "line", none⟩ none = ([Event.readAll, Event.loadMap], false) := rfl

/-- C5 amended: in line-buffered mode a mapping-table failure aborts before
any input is read (the only event is the failed load); in whole-buffer mode
the input is fully read first, but a table failure still aborts before any
output is written. -/
theorem map_failure_aborts_before_processing :
    (∀ (w : World) (cwd : Option String), w.mapData = none →
      runLineBuffered w cwd = ([Event.loadMap], false)) ∧
    (∀ (w : World) (cwd : Option String) (s : String), w.mapData = none →
      Event.write s ∉ (runWholeBuffer w cwd).1) := by
  constructor
  · intro w cwd h
    simp only [runLineBuffered, h]
  · intro w cwd s h
    unfold runWholeBuffer
    cases hi : w.inputData with
    | none => simp
    | some input =>
      rw [h]
      simp

theorem map_failure_aborts_before_processing_witness :
    runLineBuffered ⟨some "x", none⟩ none = ([Event.loadMap], false) ∧
    Event.write "y" ∉ (runWholeBuffer ⟨some "x", none⟩ none).1 :=
  ⟨map_failure_aborts_before_processing.1 ⟨some "x", none⟩ none rfl,
   map_failure_aborts_before_processing.2 ⟨some "x", none⟩ none "y" rfl⟩
